import Mathlib

/-!
Shallow embedding of the rhymefreq pipeline (rhyme_families_basic.py and
rhyme_families_enhanced.py) and verification of its specification claims.

Phonemes are modelled as Lean `String`s, phoneme sequences as `List String`,
word spellings as `String`, and frequency (Zipf) scores as `ℚ`.
Python dicts (which preserve insertion order) are modelled as association
lists, and Python's stable `sorted(..., reverse=True)` as
`List.insertionSort` with a "greater-or-equal on the key" relation, which has
the same stable-sort specification.
-/

/-- Loop pattern shared by `rhyme_unit`, `rhyme_unit_and_type` and
`ortho_ending` in both source files: iterate with `enumerate`, remembering the
index of the last element satisfying `p` (`last_idx = i` inside the loop). -/
def lastIdxWhereAux {α : Type _} (p : α → Bool) : List α → Nat → Option Nat → Option Nat
  | [], _, acc => acc
  | a :: rest, i, acc => lastIdxWhereAux p rest (i + 1) (if p a then some i else acc)

/-- Index of the last element of `l` satisfying `p` (`None` if there is none),
exactly as computed by the enumerate-and-overwrite loops in the source. -/
def lastIdxWhere {α : Type _} (p : α → Bool) (l : List α) : Option Nat :=
  lastIdxWhereAux p l 0 none

/-- Structural-recursion reformulation of `lastIdxWhere`, used only in proofs. -/
def lastIdxRec {α : Type _} (p : α → Bool) : List α → Option Nat
  | [] => none
  | a :: rest =>
    match lastIdxRec p rest with
    | some k => some (k + 1)
    | none => if p a then some 0 else none

theorem lastIdxWhereAux_eq {α : Type _} (p : α → Bool) :
    ∀ (l : List α) (i : Nat) (acc : Option Nat),
      lastIdxWhereAux p l i acc =
        (match lastIdxRec p l with
         | some k => some (i + k)
         | none => acc)
  | [], _, _ => rfl
  | a :: rest, i, acc => by
    rw [lastIdxWhereAux, lastIdxWhereAux_eq p rest]
    cases h : lastIdxRec p rest with
    | some k =>
      simp only [lastIdxRec, h]
      congr 1
      omega
    | none =>
      simp only [lastIdxRec, h]
      cases hpa : p a <;> simp

theorem lastIdxWhere_eq_rec {α : Type _} (p : α → Bool) (l : List α) :
    lastIdxWhere p l = lastIdxRec p l := by
  rw [lastIdxWhere, lastIdxWhereAux_eq]
  cases h : lastIdxRec p l <;> simp

theorem lastIdxRec_eq_none_iff {α : Type _} (p : α → Bool) :
    ∀ l : List α, lastIdxRec p l = none ↔ ∀ a ∈ l, p a = false
  | [] => by simp [lastIdxRec]
  | a :: rest => by
    rw [lastIdxRec]
    constructor
    · intro h
      cases hr : lastIdxRec p rest with
      | some k => rw [hr] at h; exact absurd h (by simp)
      | none =>
        rw [hr] at h
        cases hpa : p a with
        | true => rw [hpa] at h; exact absurd h (by simp)
        | false =>
          intro x hx
          rcases List.mem_cons.mp hx with rfl | hx'
          · exact hpa
          · exact ((lastIdxRec_eq_none_iff p rest).mp hr) x hx'
    · intro h
      have hr : lastIdxRec p rest = none :=
        (lastIdxRec_eq_none_iff p rest).mpr fun x hx => h x (List.mem_cons_of_mem a hx)
      rw [hr, h a (List.mem_cons_self a rest)]
      simp

theorem lastIdxRec_some_spec {α : Type _} (p : α → Bool) :
    ∀ (l : List α) (i : Nat), lastIdxRec p l = some i →
      ∃ h : i < l.length, p (l.get ⟨i, h⟩) = true ∧
        ∀ j (hj : j < l.length), i < j → p (l.get ⟨j, hj⟩) = false
  | [], i => by simp [lastIdxRec]
  | a :: rest, i => by
    rw [lastIdxRec]
    cases hr : lastIdxRec p rest with
    | some k =>
      intro hi
      have hik : i = k + 1 := by
        have := Option.some.inj hi
        omega
      subst hik
      obtain ⟨hk, hpk, hafter⟩ := lastIdxRec_some_spec p rest k hr
      refine ⟨Nat.succ_lt_succ hk, ?_, ?_⟩
      · simpa using hpk
      · intro j hj hij
        cases j with
        | zero => omega
        | succ j' =>
          have hj' : j' < rest.length := Nat.lt_of_succ_lt_succ hj
          simpa using hafter j' hj' (Nat.lt_of_succ_lt_succ hij)
    | none =>
      cases hpa : p a with
      | false => simp
      | true =>
        intro hi
        have hi0 : i = 0 := (Option.some.inj hi).symm
        subst hi0
        refine ⟨Nat.succ_pos _, by simpa using hpa, ?_⟩
        intro j hj h0j
        cases j with
        | zero => omega
        | succ j' =>
          have hj' : j' < rest.length := Nat.lt_of_succ_lt_succ hj
          have hall := (lastIdxRec_eq_none_iff p rest).mp hr
          simpa using hall (rest.get ⟨j', hj'⟩) (rest.get_mem _ _)

theorem lastIdxRec_eq_some_of {α : Type _} (p : α → Bool) :
    ∀ (l : List α) (i : Nat) (h : i < l.length),
      p (l.get ⟨i, h⟩) = true →
      (∀ j (hj : j < l.length), i < j → p (l.get ⟨j, hj⟩) = false) →
      lastIdxRec p l = some i
  | [], i, h => by simp at h
  | a :: rest, i, h => by
    intro hp hafter
    cases i with
    | zero =>
      have hrest : lastIdxRec p rest = none := by
        rw [lastIdxRec_eq_none_iff]
        intro x hx
        obtain ⟨⟨j', hj'⟩, rfl⟩ := List.mem_iff_get.mp hx
        have := hafter (j' + 1) (Nat.succ_lt_succ hj') (Nat.succ_pos _)
        simpa using this
      rw [lastIdxRec, hrest]
      simpa using hp
    | succ k =>
      have hk : k < rest.length := Nat.lt_of_succ_lt_succ h
      have hrest : lastIdxRec p rest = some k := by
        apply lastIdxRec_eq_some_of p rest k hk
        · simpa using hp
        · intro j hj hkj
          have := hafter (j + 1) (Nat.succ_lt_succ hj) (Nat.succ_lt_succ hkj)
          simpa using this
      rw [lastIdxRec, hrest]

/-- Model of the Python test `ph.endswith('1')` (primary-stress marker): for a
one-character suffix this holds exactly when the last character is `'1'`. -/
def endsWith1 (ph : String) : Bool :=
  match ph.data.getLast? with
  | some c => decide (c = '1')
  | none => false

/-- Model of `is_vowel_ph` from rhyme_families_enhanced.py:
`ph[-1] in '012'` — the last character is a stress digit. -/
def is_vowel_ph (ph : String) : Bool :=
  match ph.data.getLast? with
  | some c => decide (c = '0' ∨ c = '1' ∨ c = '2')
  | none => false

/-- Model of `rhyme_unit` from rhyme_families_basic.py: the suffix of the
phoneme list from the last primary-stressed phoneme onward, `none` when no
phoneme carries primary stress. -/
def rhyme_unit (phonemes : List String) : Option (List String) :=
  match lastIdxWhere endsWith1 phonemes with
  | some i => some (phonemes.drop i)
  | none => none

/-- Model of `count_vowels` from rhyme_families_enhanced.py. -/
def count_vowels (phonemes : List String) : Nat :=
  (phonemes.filter is_vowel_ph).length

/-- Model of `rhyme_unit_and_type` from rhyme_families_enhanced.py: rhyme unit,
rhyme-type name, and trailing-syllable count. -/
def rhyme_unit_and_type (phonemes : List String) : Option (List String × String × Int) :=
  match lastIdxWhere endsWith1 phonemes with
  | none => none
  | some i =>
    let unit := phonemes.drop i
    let vowel_count := count_vowels unit
    let syllables_after : Int := (vowel_count : Int) - 1
    let rtype : String :=
      if vowel_count ≤ 1 then "masculine"
      else if vowel_count = 2 then "feminine"
      else "dactylic"
    some (unit, rtype, syllables_after)

theorem endsWith1_is_vowel {ph : String} (h : endsWith1 ph = true) :
    is_vowel_ph ph = true := by
  unfold endsWith1 at h
  unfold is_vowel_ph
  cases hc : ph.data.getLast? with
  | none => rw [hc] at h; exact absurd h (by simp)
  | some c =>
    rw [hc] at h
    have : c = '1' := of_decide_eq_true h
    subst this
    simp

/-- C1: rhyme-unit extraction returns `none` iff no phoneme ends with the
primary-stress marker `'1'`; otherwise it returns exactly the suffix of the
sequence from the position of the last such phoneme to the end. -/
theorem C1_rhyme_unit_last_stress (phonemes : List String) :
    (rhyme_unit phonemes = none ↔ ∀ ph ∈ phonemes, endsWith1 ph = false) ∧
    (∀ i (h : i < phonemes.length),
      endsWith1 (phonemes.get ⟨i, h⟩) = true →
      (∀ j (hj : j < phonemes.length), i < j → endsWith1 (phonemes.get ⟨j, hj⟩) = false) →
      rhyme_unit phonemes = some (phonemes.drop i)) := by
  constructor
  · rw [rhyme_unit, lastIdxWhere_eq_rec]
    cases h : lastIdxRec endsWith1 phonemes with
    | some k =>
      simp only [h]
      constructor
      · intro hcontra; exact absurd hcontra (by simp)
      · intro hall
        exact absurd h (by rw [(lastIdxRec_eq_none_iff endsWith1 phonemes).mpr hall]; simp)
    | none =>
      simp only [h]
      constructor
      · intro _
        exact (lastIdxRec_eq_none_iff endsWith1 phonemes).mp h
      · intro _
        trivial
  · intro i h hp hafter
    rw [rhyme_unit, lastIdxWhere_eq_rec,
      lastIdxRec_eq_some_of endsWith1 phonemes i h hp hafter]

/-- Concrete check of C1: for cat, `['K','AE1','T']`, the unit starts at the
last (only) primary-stressed phoneme, index 1. -/
theorem C1_witness : rhyme_unit ["K", "AE1", "T"] = some ["AE1", "T"] :=
  (C1_rhyme_unit_last_stress ["K", "AE1", "T"]).2 1 (by decide) (by decide) (by decide)

/-- C2: whenever a rhyme unit is produced, its vowel count (phonemes whose
last character is a stress digit) is at least 1, the type is masculine /
feminine / dactylic according to count 1 / 2 / ≥ 3, and `syllables_after`
equals the vowel count minus 1. -/
theorem C2_type_classification (phonemes : List String) (u : List String)
    (t : String) (s : Int) :
    rhyme_unit_and_type phonemes = some (u, t, s) →
    1 ≤ count_vowels u ∧
    t = (if count_vowels u = 1 then "masculine"
         else if count_vowels u = 2 then "feminine" else "dactylic") ∧
    s = (count_vowels u : Int) - 1 := by
  rw [rhyme_unit_and_type, lastIdxWhere_eq_rec]
  cases h : lastIdxRec endsWith1 phonemes with
  | none => simp
  | some i =>
    simp only []
    intro hsome
    obtain ⟨hu, ht, hs⟩ : phonemes.drop i = u ∧
        (if count_vowels (phonemes.drop i) ≤ 1 then "masculine"
         else if count_vowels (phonemes.drop i) = 2 then "feminine"
         else "dactylic") = t ∧
        (count_vowels (phonemes.drop i) : Int) - 1 = s := by
      have := Option.some.inj hsome
      exact ⟨congrArg Prod.fst this, congrArg (Prod.fst ∘ Prod.snd) this,
        congrArg (Prod.snd ∘ Prod.snd) this⟩
    subst hu
    obtain ⟨hi, hpi, _⟩ := lastIdxRec_some_spec endsWith1 phonemes i h
    have hone : 1 ≤ count_vowels (phonemes.drop i) := by
      have hdrop : phonemes.get ⟨i, hi⟩ :: phonemes.drop (i + 1) = phonemes.drop i :=
        List.get_cons_drop phonemes ⟨i, hi⟩
      rw [count_vowels, ← hdrop, List.filter_cons, endsWith1_is_vowel hpi]
      simp
    refine ⟨hone, ?_, hs.symm⟩
    rw [← ht]
    by_cases h1 : count_vowels (phonemes.drop i) = 1
    · rw [if_pos h1, if_pos (by omega)]
    · rw [if_neg h1, if_neg (by omega)]

/-- Concrete check of C2: either (/iː/), `['IY1','DH','ER0']`, has 2 vowels in
its unit, hence feminine with one trailing syllable. -/
theorem C2_witness :
    1 ≤ count_vowels ["IY1", "DH", "ER0"] ∧
    "feminine" = (if count_vowels ["IY1", "DH", "ER0"] = 1 then "masculine"
      else if count_vowels ["IY1", "DH", "ER0"] = 2 then "feminine" else "dactylic") ∧
    (1 : Int) = (count_vowels ["IY1", "DH", "ER0"] : Int) - 1 :=
  C2_type_classification ["IY1", "DH", "ER0"] ["IY1", "DH", "ER0"] "feminine" 1 (by decide)

/-- C10: the basic variant's `rhyme_unit` and the enhanced variant's
`rhyme_unit_and_type` agree — they fail together, and on success the former
returns the rhyme-unit component of the latter. -/
theorem C10_variants_agree (phonemes : List String) :
    (rhyme_unit phonemes = none ↔ rhyme_unit_and_type phonemes = none) ∧
    (∀ u t s, rhyme_unit_and_type phonemes = some (u, t, s) →
      rhyme_unit phonemes = some u) := by
  rw [rhyme_unit, rhyme_unit_and_type]
  cases h : lastIdxWhere endsWith1 phonemes with
  | none => simp
  | some i =>
    simp only []
    refine ⟨by simp, ?_⟩
    intro u t s hsome
    have := Option.some.inj hsome
    exact congrArg (fun x => some x.1) this

/-- Concrete check of C10 on a sequence with a primary stress. -/
theorem C10_witness : rhyme_unit ["AY1", "DH", "ER0"] = some ["AY1", "DH", "ER0"] :=
  (C10_variants_agree ["AY1", "DH", "ER0"]).2 ["AY1", "DH", "ER0"] "feminine" 1 (by decide)

/-- Descending comparison on `(word, score)` pairs: models the key function
`lambda x: x[1]` together with `reverse=True` in the source's `sorted` calls. -/
def scoreGe (a b : String × ℚ) : Prop := b.2 ≤ a.2

instance (a b : String × ℚ) : Decidable (scoreGe a b) :=
  inferInstanceAs (Decidable (b.2 ≤ a.2))

instance : IsTotal (String × ℚ) scoreGe :=
  ⟨fun a b => le_total b.2 a.2⟩

instance : IsTrans (String × ℚ) scoreGe :=
  ⟨fun _ _ _ h1 h2 => le_trans h2 h1⟩

/-- Model of `sorted(pairs, key=lambda x: x[1], reverse=True)`: a stable sort
by descending score (Python's sort is stable; `List.insertionSort` with a
total preorder has the same stable-sort specification). -/
def pySortDesc (l : List (String × ℚ)) : List (String × ℚ) :=
  List.insertionSort scoreGe l

/-- First element of the list attaining the maximal score; proof-internal
bridge describing the head of the stable descending sort. -/
def pickMax : List (String × ℚ) → Option (String × ℚ)
  | [] => none
  | x :: xs =>
    match pickMax xs with
    | none => some x
    | some m => if m.2 ≤ x.2 then some x else some m

theorem pickMax_cons_none (x : String × ℚ) (xs : List (String × ℚ))
    (h : pickMax xs = none) : pickMax (x :: xs) = some x := by
  rw [pickMax, h]

theorem pickMax_cons_some_le (x : String × ℚ) (xs : List (String × ℚ))
    (m : String × ℚ) (h : pickMax xs = some m) (hle : m.2 ≤ x.2) :
    pickMax (x :: xs) = some x := by
  rw [pickMax, h]
  exact if_pos hle

theorem pickMax_cons_some_gt (x : String × ℚ) (xs : List (String × ℚ))
    (m : String × ℚ) (h : pickMax xs = some m) (hle : ¬m.2 ≤ x.2) :
    pickMax (x :: xs) = some m := by
  rw [pickMax, h]
  exact if_neg hle

theorem pickMax_eq_none_iff : ∀ l : List (String × ℚ), pickMax l = none ↔ l = []
  | [] => by simp [pickMax]
  | x :: xs => by
    cases h : pickMax xs with
    | none => rw [pickMax_cons_none x xs h]; simp
    | some m =>
      by_cases hle : m.2 ≤ x.2
      · rw [pickMax_cons_some_le x xs m h hle]; simp
      · rw [pickMax_cons_some_gt x xs m h hle]; simp

theorem head?_pySortDesc : ∀ l : List (String × ℚ), (pySortDesc l).head? = pickMax l
  | [] => rfl
  | x :: xs => by
    have ih := head?_pySortDesc xs
    rw [pySortDesc] at ih ⊢
    rw [List.insertionSort]
    cases hs : List.insertionSort scoreGe xs with
    | nil =>
      rw [hs] at ih
      simp only [List.head?] at ih
      have hpick : pickMax (x :: xs) = some x := by
        rw [pickMax, ← ih]
      rw [hpick]
      simp [List.orderedInsert]
    | cons b t =>
      rw [hs] at ih
      simp only [List.head?] at ih
      have hpick : pickMax (x :: xs) = if b.2 ≤ x.2 then some x else some b := by
        rw [pickMax, ← ih]
      rw [hpick, List.orderedInsert]
      by_cases hbx : b.2 ≤ x.2
      · rw [if_pos (show scoreGe x b from hbx), if_pos hbx]
        simp
      · rw [if_neg (show ¬scoreGe x b from hbx), if_neg hbx]
        simp

theorem pickMax_mem : ∀ (l : List (String × ℚ)) (m), pickMax l = some m → m ∈ l
  | [], m => by simp [pickMax]
  | x :: xs, m => by
    cases h : pickMax xs with
    | none =>
      rw [pickMax_cons_none x xs h]
      intro hm
      exact List.mem_cons.mpr (Or.inl (Option.some.inj hm).symm)
    | some m0 =>
      by_cases hle : m0.2 ≤ x.2
      · rw [pickMax_cons_some_le x xs m0 h hle]
        intro hm
        exact List.mem_cons.mpr (Or.inl (Option.some.inj hm).symm)
      · rw [pickMax_cons_some_gt x xs m0 h hle]
        intro hm
        have : m0 = m := Option.some.inj hm
        exact List.mem_cons.mpr (Or.inr (this ▸ pickMax_mem xs m0 h))

theorem pickMax_le : ∀ (l : List (String × ℚ)) (m), pickMax l = some m →
    ∀ p ∈ l, p.2 ≤ m.2
  | [], m => by simp [pickMax]
  | x :: xs, m => by
    cases h : pickMax xs with
    | none =>
      rw [pickMax_cons_none x xs h]
      intro hm p hp
      have hxs : xs = [] := (pickMax_eq_none_iff xs).mp h
      subst hxs
      have hm' : x = m := Option.some.inj hm
      rcases List.mem_cons.mp hp with rfl | hfalse
      · exact le_of_eq (congrArg Prod.snd hm')
      · simp at hfalse
    | some m0 =>
      by_cases hle : m0.2 ≤ x.2
      · rw [pickMax_cons_some_le x xs m0 h hle]
        intro hm p hp
        have hm' : x = m := Option.some.inj hm
        rcases List.mem_cons.mp hp with rfl | hmem
        · exact le_of_eq (congrArg Prod.snd hm')
        · exact le_trans (le_trans (pickMax_le xs m0 h p hmem) hle)
            (le_of_eq (congrArg Prod.snd hm'))
      · rw [pickMax_cons_some_gt x xs m0 h hle]
        intro hm p hp
        have hm' : m0 = m := Option.some.inj hm
        rcases List.mem_cons.mp hp with rfl | hmem
        · exact le_trans (le_of_lt (not_le.mp hle)) (le_of_eq (congrArg Prod.snd hm'))
        · exact le_trans (pickMax_le xs m0 h p hmem) (le_of_eq (congrArg Prod.snd hm'))

theorem pickMax_eq_filter_head :
    ∀ l : List (String × ℚ),
      pickMax l = (l.filter (fun p => l.all (fun q => decide (q.2 ≤ p.2)))).head?
  | [] => rfl
  | x :: xs => by
    cases h : pickMax xs with
    | none =>
      have hnil : xs = [] := (pickMax_eq_none_iff xs).mp h
      subst hnil
      rw [pickMax_cons_none x [] h]
      simp
    | some m0 =>
      have hmem := pickMax_mem xs m0 h
      have hle := pickMax_le xs m0 h
      have ih := pickMax_eq_filter_head xs
      rw [h] at ih
      by_cases hx : m0.2 ≤ x.2
      · rw [pickMax_cons_some_le x xs m0 h hx]
        have hPx : ((x :: xs).all (fun q => decide (q.2 ≤ x.2))) = true := by
          rw [List.all_eq_true]
          intro q hq
          rcases List.mem_cons.mp hq with rfl | hq'
          · simp
          · exact decide_eq_true ((hle q hq').trans hx)
        rw [List.filter_cons, hPx]
        simp
      · rw [pickMax_cons_some_gt x xs m0 h hx]
        have hm0x : x.2 < m0.2 := not_le.mp hx
        have hPx : ((x :: xs).all (fun q => decide (q.2 ≤ x.2))) = false := by
          rw [Bool.eq_false_iff]
          intro hall
          rw [List.all_eq_true] at hall
          have := of_decide_eq_true (hall m0 (List.mem_cons_of_mem x hmem))
          exact absurd this (not_le.mpr hm0x)
        rw [List.filter_cons, hPx]
        have hcongr : xs.filter (fun p => (x :: xs).all (fun q => decide (q.2 ≤ p.2))) =
            xs.filter (fun p => xs.all (fun q => decide (q.2 ≤ p.2))) := by
          apply List.filter_congr
          intro p hp
          cases hpxs : xs.all (fun q => decide (q.2 ≤ p.2)) with
          | true =>
            have hall := List.all_eq_true.mp hpxs
            have hm0p : m0.2 ≤ p.2 := of_decide_eq_true (hall m0 hmem)
            rw [List.all_cons, hpxs, Bool.and_true]
            exact decide_eq_true (le_of_lt (lt_of_lt_of_le hm0x hm0p))
          | false =>
            rw [List.all_cons, hpxs, Bool.and_false]
        simp only [hcongr]
        exact ih

/-- Vowel-letter test of `ortho_ending`: `ch in 'aeiou'`. -/
def isVowelLetter (c : Char) : Bool :=
  decide (c = 'a' ∨ c = 'e' ∨ c = 'i' ∨ c = 'o' ∨ c = 'u')

/-- Model of `ortho_ending` from both source files: the lowercased substring
of the spelling from the last vowel letter onward (found on the lowercased
spelling), or the whole lowercased spelling when no vowel letter occurs.
Python's `str.lower` is modelled per character by `Char.toLower`. -/
def ortho_ending (word : String) : String :=
  match lastIdxWhere isVowelLetter (word.data.map Char.toLower) with
  | some i => String.mk ((word.data.drop i).map Char.toLower)
  | none => String.mk (word.data.map Char.toLower)

/-- Rounding to the nearest integer, `⌊q + 1/2⌋`, written with the executable
rational primitives (`mkRat`, `Rat.floor`) so that concrete instances reduce;
`pyRound_eq_round` identifies it with Mathlib's `round`. It models Python's
rounding (ties at a half are rounded up here while Python rounds half to
even; no claim checked below depends on the tie direction). -/
def pyRound (q : ℚ) : ℤ :=
  (mkRat (2 * q.num + (q.den : ℤ)) (2 * q.den)).floor

/-- Multiplication by `10 ^ d`, written on the numerator so that concrete
instances reduce; `scaleByPow10_eq` identifies it with `q * 10 ^ d`. -/
def scaleByPow10 (d : Nat) (q : ℚ) : ℚ :=
  mkRat (q.num * (10 ^ d : ℕ)) q.den

/-- Value rounded to `d` decimal digits: models Python's `round(x, d)` and the
value shown by fixed-point formatting. `roundTo_eq` rewrites it into the
textbook form `round (q * 10 ^ d) / 10 ^ d`. -/
def roundTo (d : Nat) (q : ℚ) : ℚ :=
  mkRat (pyRound (scaleByPow10 d q)) (10 ^ d)

theorem rat_floor_eq_intFloor (q : ℚ) : q.floor = ⌊q⌋ := by
  rw [Rat.floor_def', Rat.floor_def]

theorem pyRound_eq_round (q : ℚ) : pyRound q = round q := by
  have hden : ((q.den : ℚ)) ≠ 0 := Nat.cast_ne_zero.mpr q.den_nz
  have hnum : q * (q.den : ℚ) = (q.num : ℚ) := by
    nth_rewrite 1 [← Rat.num_div_den q]
    rw [div_mul_cancel₀ _ hden]
  rw [pyRound, rat_floor_eq_intFloor, round_eq, Rat.mkRat_eq_div]
  congr 1
  rw [div_eq_iff (by push_cast; exact mul_ne_zero two_ne_zero hden)]
  push_cast
  rw [← hnum]
  ring

theorem scaleByPow10_eq (d : Nat) (q : ℚ) : scaleByPow10 d q = q * (10 : ℚ) ^ d := by
  rw [scaleByPow10, Rat.mkRat_eq_div]
  push_cast
  conv_rhs => rw [← Rat.num_div_den q]
  ring

theorem roundTo_eq (d : Nat) (q : ℚ) :
    roundTo d q = ((round (q * (10 : ℚ) ^ d) : ℤ) : ℚ) / (10 : ℚ) ^ d := by
  rw [roundTo, Rat.mkRat_eq_div, pyRound_eq_round, scaleByPow10_eq]
  push_cast
  ring

/-- Fixed-point decimal rendering with `d` digits after the point (for the
nonnegative Zipf scores used by the pipeline): models the f-string `{z:.df}`
used for the spelling-variant scores. -/
def fmtFixed (d : Nat) (q : ℚ) : String :=
  let n : Int := pyRound (scaleByPow10 d q)
  let base : Int := (10 : Int) ^ d
  let ip := n / base
  let fpStr := toString (n % base).toNat
  let pad := String.mk (List.replicate (d - fpStr.length) '0')
  toString ip ++ "." ++ pad ++ fpStr

/-- Association-list lookup, modelling `key in dict` / `dict[key]` on a
Python dict held in insertion order. -/
def lookupA {κ α : Type _} [DecidableEq κ] : List (κ × α) → κ → Option α
  | [], _ => none
  | p :: rest, k => if p.1 = k then some p.2 else lookupA rest k

/-- Association-list update at an existing key, modelling `dict[key] = v`,
which keeps the key's original insertion position. -/
def replaceA {κ α : Type _} [DecidableEq κ] (m : List (κ × α)) (k : κ) (v : α) :
    List (κ × α) :=
  m.map (fun p => if p.1 = k then (k, v) else p)

/-- One iteration of the `by_ending` loop of both source files: per
orthographic ending keep the best-scoring member, replacing only on a
strictly greater score (`z > by_ending[ending][1]`). -/
def by_ending_step (m : List (String × (String × ℚ))) (wz : String × ℚ) :
    List (String × (String × ℚ)) :=
  let e := ortho_ending wz.1
  match lookupA m e with
  | none => m ++ [(e, wz)]
  | some prev => if prev.2 < wz.2 then replaceA m e wz else m

/-- The `by_ending` dict of both source files (insertion order preserved). -/
def by_ending (members : List (String × ℚ)) : List (String × (String × ℚ)) :=
  members.foldl by_ending_step []

/-- Spelling-variant candidates:
`sorted(by_ending.values(), key=lambda x: x[1], reverse=True)`. -/
def variantsPre (members : List (String × ℚ)) : List (String × ℚ) :=
  pySortDesc ((by_ending members).map Prod.snd)

/-- Truncation `variants[:MAX_VARIANTS]` of the variant candidates. -/
def variantsShown (maxV : Nat) (members : List (String × ℚ)) : List (String × ℚ) :=
  (variantsPre members).take maxV

/-- The `spelling_variants` display string: `',  '`-joined `word (score)`
pieces, each score formatted to one decimal place (`{z:.1f}`). -/
def variant_str (maxV : Nat) (members : List (String × ℚ)) : String :=
  String.intercalate ",  " ((variantsShown maxV members).map
    (fun p => p.1 ++ " (" ++ fmtFixed 1 p.2 ++ ")"))

/-- Output row of rhyme_families_basic.py. -/
structure BasicRow where
  rhyme_unit : String
  family_size : Nat
  representative : String
  rep_zipf : ℚ
  spelling_variants : String
  all_words : String
deriving DecidableEq

/-- Output row of rhyme_families_enhanced.py. -/
structure EnhancedRow where
  type : String
  rhyme_unit : String
  syllables_after : Int
  family_size : Nat
  representative : String
  rep_zipf : ℚ
  spelling_variants : String
  all_words : String
deriving DecidableEq

/-- Row construction of rhyme_families_basic.py (step 4), from a family's
member dict in insertion order. `members[0]` in the source presumes a
nonempty family (always true for emitted rows); the model totalises it with
a default that no claim relies on. -/
def mkBasicRow (maxV : Nat) (unit : List String) (wmap : List (String × ℚ)) : BasicRow :=
  let members := pySortDesc wmap
  let rep := members.head?.getD ("", 0)
  { rhyme_unit := String.intercalate " " unit
    family_size := members.length
    representative := rep.1
    rep_zipf := roundTo 2 rep.2
    spelling_variants := variant_str maxV members
    all_words := String.intercalate ", " (members.map Prod.fst) }

/-- Model of `build_family_row` from rhyme_families_enhanced.py; `members`
arrives sorted by descending score from the caller. -/
def build_family_row (maxV : Nat) (unit : List String) (members : List (String × ℚ))
    (rtype : String) : EnhancedRow :=
  let rep := members.head?.getD ("", 0)
  { type := rtype
    rhyme_unit := String.intercalate " " unit
    syllables_after := (count_vowels unit : Int) - 1
    family_size := members.length
    representative := rep.1
    rep_zipf := roundTo 2 rep.2
    spelling_variants := variant_str maxV members
    all_words := String.intercalate ", " (members.map Prod.fst) }

/-- Descending lexicographic comparison on the sort key
`(family_size, rep_zipf)` used by `rows.sort(..., reverse=True)`. -/
def keyGe (a b : Nat × ℚ) : Prop := b.1 < a.1 ∨ (b.1 = a.1 ∧ b.2 ≤ a.2)

instance (a b : Nat × ℚ) : Decidable (keyGe a b) :=
  inferInstanceAs (Decidable (b.1 < a.1 ∨ (b.1 = a.1 ∧ b.2 ≤ a.2)))

theorem keyGe_total (a b : Nat × ℚ) : keyGe a b ∨ keyGe b a := by
  rcases Nat.lt_trichotomy a.1 b.1 with h | h | h
  · exact Or.inr (Or.inl h)
  · rcases le_total a.2 b.2 with h2 | h2
    · exact Or.inr (Or.inr ⟨h, h2⟩)
    · exact Or.inl (Or.inr ⟨h.symm, h2⟩)
  · exact Or.inl (Or.inl h)

theorem keyGe_trans (a b c : Nat × ℚ) : keyGe a b → keyGe b c → keyGe a c := by
  intro hab hbc
  rcases hab with h1 | ⟨h1, h1'⟩ <;> rcases hbc with h2 | ⟨h2, h2'⟩
  · exact Or.inl (lt_trans h2 h1)
  · exact Or.inl (by omega)
  · exact Or.inl (by omega)
  · exact Or.inr ⟨by omega, h2'.trans h1'⟩

def basicRowGe (a b : BasicRow) : Prop :=
  keyGe (a.family_size, a.rep_zipf) (b.family_size, b.rep_zipf)

instance : DecidableRel basicRowGe := fun a b =>
  inferInstanceAs (Decidable (keyGe (a.family_size, a.rep_zipf) (b.family_size, b.rep_zipf)))

instance : IsTotal BasicRow basicRowGe := ⟨fun a b => keyGe_total _ _⟩

instance : IsTrans BasicRow basicRowGe := ⟨fun _ _ _ => keyGe_trans _ _ _⟩

def enhancedRowGe (a b : EnhancedRow) : Prop :=
  keyGe (a.family_size, a.rep_zipf) (b.family_size, b.rep_zipf)

instance : DecidableRel enhancedRowGe := fun a b =>
  inferInstanceAs (Decidable (keyGe (a.family_size, a.rep_zipf) (b.family_size, b.rep_zipf)))

instance : IsTotal EnhancedRow enhancedRowGe := ⟨fun a b => keyGe_total _ _⟩

instance : IsTrans EnhancedRow enhancedRowGe := ⟨fun _ _ _ => keyGe_trans _ _ _⟩

/-- Model of the stable
`rows.sort(key=lambda r: (r['family_size'], r['rep_zipf']), reverse=True)`. -/
def pySortRowsBasic (rows : List BasicRow) : List BasicRow :=
  List.insertionSort basicRowGe rows

/-- Enhanced-variant row sort, same key and direction. -/
def pySortRowsEnhanced (rows : List EnhancedRow) : List EnhancedRow :=
  List.insertionSort enhancedRowGe rows

/-- Python dict assignment `word_z_map[word] = z`: update in place when the
word is present, append otherwise. -/
def dictInsert (m : List (String × ℚ)) (w : String) (z : ℚ) : List (String × ℚ) :=
  match lookupA m w with
  | some _ => replaceA m w z
  | none => m ++ [(w, z)]

/-- Assignment `families[key][word] = z` on the defaultdict-of-dicts family
structure: a fresh one-entry dict for a new key, in-place update otherwise. -/
def famsInsert {κ : Type _} [DecidableEq κ] (fams : List (κ × List (String × ℚ)))
    (k : κ) (w : String) (z : ℚ) : List (κ × List (String × ℚ)) :=
  match lookupA fams k with
  | some wmap => replaceA fams k (dictInsert wmap w z)
  | none => fams ++ [(k, [(w, z)])]

/-- Inner loop of step 3 in both mains, over one word's pronunciation list:
compute the family key of each pronunciation via `keyFn` (rhyme unit, or
rhyme unit plus type), skip pronunciations without a key, skip keys already
seen for this word (the `units_seen` / `seen_unit_type` guard), insert
otherwise. -/
def processProns {κ : Type _} [DecidableEq κ] (keyFn : List String → Option κ)
    (w : String) (z : ℚ) :
    List (List String) → List κ → List (κ × List (String × ℚ)) →
      List (κ × List (String × ℚ))
  | [], _, fams => fams
  | phonemes :: rest, seen, fams =>
    match keyFn phonemes with
    | none => processProns keyFn w z rest seen fams
    | some k =>
      if k ∈ seen then processProns keyFn w z rest seen fams
      else processProns keyFn w z rest (k :: seen) (famsInsert fams k w z)

/-- Outer loop of step 3 in both mains, over `word_pronunciations.items()`:
one frequency lookup per canonical word; words scoring below the cutoff are
skipped entirely. -/
def aggregate {κ : Type _} [DecidableEq κ] (keyFn : List String → Option κ)
    (score : String → ℚ) (cutoff : ℚ) :
    List (String × List (List String)) → List (κ × List (String × ℚ)) →
      List (κ × List (String × ℚ))
  | [], fams => fams
  | (w, prons) :: rest, fams =>
    if score w < cutoff then aggregate keyFn score cutoff rest fams
    else aggregate keyFn score cutoff rest (processProns keyFn w (score w) prons [] fams)

/-- The family map built by rhyme_families_basic.py, keyed by rhyme unit. -/
def buildFamiliesBasic (score : String → ℚ) (cutoff : ℚ)
    (input : List (String × List (List String))) :
    List (List String × List (String × ℚ)) :=
  aggregate rhyme_unit score cutoff input []

/-- Family key of the enhanced variant: the pair `(unit, rtype)`. The nested
`by_type[rtype][unit]` dicts of the source hold exactly the member maps of
this flat pair-keyed map. -/
def enhancedKey (phonemes : List String) : Option (List String × String) :=
  match rhyme_unit_and_type phonemes with
  | none => none
  | some r => some (r.1, r.2.1)

/-- The family map built by rhyme_families_enhanced.py, keyed by
`(unit, rtype)`. -/
def buildFamiliesEnhanced (score : String → ℚ) (cutoff : ℚ)
    (input : List (String × List (List String))) :
    List ((List String × String) × List (String × ℚ)) :=
  aggregate enhancedKey score cutoff input []

/-- Step 4 of the basic variant: one row per family having at least `minSize`
members (`if len(word_z_map) < MIN_FAMILY_SIZE: continue`). -/
def buildRowsBasic (minSize maxV : Nat)
    (fams : List (List String × List (String × ℚ))) : List BasicRow :=
  fams.filterMap
    (fun f => if f.2.length < minSize then none else some (mkBasicRow maxV f.1 f.2))

/-- Families of one rhyme type, in insertion order — recovers the iteration
over `by_type[rtype].items()`. -/
def famsOfType (rtype : String)
    (fams : List ((List String × String) × List (String × ℚ))) :
    List (List String × List (String × ℚ)) :=
  fams.filterMap (fun f => if f.1.2 = rtype then some (f.1.1, f.2) else none)

/-- Step 4 of the enhanced variant for one type: qualifying families become
rows, then the rows are sorted. -/
def rowsForType (minSize maxV : Nat) (rtype : String)
    (fams : List ((List String × String) × List (String × ℚ))) : List EnhancedRow :=
  pySortRowsEnhanced ((famsOfType rtype fams).filterMap
    (fun f => if f.2.length < minSize then none
      else some (build_family_row maxV f.1 (pySortDesc f.2) rtype)))

/-- The combined `all_rows` output of the enhanced variant. -/
def allRowsEnhanced (minSize maxV : Nat)
    (fams : List ((List String × String) × List (String × ℚ))) : List EnhancedRow :=
  pySortRowsEnhanced
    (rowsForType minSize maxV "masculine" fams ++
      (rowsForType minSize maxV "feminine" fams ++
        rowsForType minSize maxV "dactylic" fams))

/-- Final sorted output rows of the basic variant. -/
def mainRowsBasic (score : String → ℚ) (cutoff : ℚ) (minSize maxV : Nat)
    (input : List (String × List (List String))) : List BasicRow :=
  pySortRowsBasic (buildRowsBasic minSize maxV (buildFamiliesBasic score cutoff input))

/-- Configuration constants shared by both source files. -/
def ZIPF_CUTOFF : ℚ := 5 / 2

/-- Minimum family size below which a family is dropped from the output. -/
def MIN_FAMILY_SIZE : Nat := 3

/-- Maximum number of spelling variants shown in the summary column. -/
def MAX_VARIANTS : Nat := 6

theorem lookupA_eq_none_iff {κ α : Type _} [DecidableEq κ] :
    ∀ (m : List (κ × α)) (k : κ), lookupA m k = none ↔ ∀ p ∈ m, p.1 ≠ k
  | [], k => by simp [lookupA]
  | p :: rest, k => by
    rw [lookupA]
    by_cases h : p.1 = k
    · rw [if_pos h]
      simp only [List.mem_cons]
      constructor
      · intro hcontra; exact absurd hcontra (by simp)
      · intro hall; exact absurd h (hall p (Or.inl rfl))
    · rw [if_neg h]
      rw [lookupA_eq_none_iff rest k]
      constructor
      · intro hall q hq
        rcases List.mem_cons.mp hq with rfl | hq'
        · exact h
        · exact hall q hq'
      · intro hall q hq
        exact hall q (List.mem_cons_of_mem p hq)

theorem lookupA_mem {κ α : Type _} [DecidableEq κ] :
    ∀ (m : List (κ × α)) (k : κ) (v : α), lookupA m k = some v → (k, v) ∈ m
  | [], k, v => by simp [lookupA]
  | p :: rest, k, v => by
    rw [lookupA]
    by_cases h : p.1 = k
    · rw [if_pos h]
      intro hv
      have hv' : p.2 = v := Option.some.inj hv
      have : (k, v) = p := by
        rw [← h, ← hv']
      exact this ▸ List.mem_cons_self p rest
    · rw [if_neg h]
      intro hv
      exact List.mem_cons_of_mem p (lookupA_mem rest k v hv)

theorem lookupA_of_nodup {κ α : Type _} [DecidableEq κ] :
    ∀ (m : List (κ × α)), (m.map Prod.fst).Nodup →
      ∀ ev ∈ m, lookupA m ev.1 = some ev.2
  | [], _, ev => by simp
  | p :: rest, hnd, ev => by
    intro hev
    rw [List.map_cons, List.nodup_cons] at hnd
    rcases List.mem_cons.mp hev with rfl | hev'
    · rw [lookupA, if_pos rfl]
    · rw [lookupA]
      by_cases h : p.1 = ev.1
      · exfalso
        apply hnd.1
        rw [h]
        exact List.mem_map.mpr ⟨ev, hev', rfl⟩
      · rw [if_neg h]
        exact lookupA_of_nodup rest hnd.2 ev hev'

theorem replaceA_map_fst {κ α : Type _} [DecidableEq κ] (m : List (κ × α)) (k : κ) (v : α) :
    (replaceA m k v).map Prod.fst = m.map Prod.fst := by
  rw [replaceA, List.map_map]
  apply List.map_congr_left
  intro p _
  by_cases h : p.1 = k
  · simp [h]
  · simp [h]

theorem mem_replaceA {κ α : Type _} [DecidableEq κ] (m : List (κ × α)) (k : κ) (v : α) :
    ∀ q ∈ replaceA m k v, (q ∈ m ∧ q.1 ≠ k) ∨ q = (k, v) := by
  intro q hq
  rw [replaceA] at hq
  obtain ⟨p, hp, hpq⟩ := List.mem_map.mp hq
  by_cases h : p.1 = k
  · rw [if_pos h] at hpq
    exact Or.inr hpq.symm
  · rw [if_neg h] at hpq
    exact Or.inl ⟨hpq ▸ hp, hpq ▸ h⟩

theorem dictInsert_eq_some (m : List (String × ℚ)) (w : String) (z : ℚ) (z0 : ℚ)
    (h : lookupA m w = some z0) : dictInsert m w z = replaceA m w z := by
  rw [dictInsert, h]

theorem dictInsert_eq_none (m : List (String × ℚ)) (w : String) (z : ℚ)
    (h : lookupA m w = none) : dictInsert m w z = m ++ [(w, z)] := by
  rw [dictInsert, h]

theorem mem_dictInsert (m : List (String × ℚ)) (w : String) (z : ℚ) :
    ∀ q ∈ dictInsert m w z, q ∈ m ∨ q = (w, z) := by
  intro q hq
  cases h : lookupA m w with
  | some z0 =>
    rw [dictInsert_eq_some m w z z0 h] at hq
    rcases mem_replaceA m w z q hq with ⟨hin, _⟩ | heq
    · exact Or.inl hin
    · exact Or.inr heq
  | none =>
    rw [dictInsert_eq_none m w z h] at hq
    rcases List.mem_append.mp hq with hin | hnew
    · exact Or.inl hin
    · exact Or.inr (by simpa using hnew)

theorem dictInsert_keys_nodup (m : List (String × ℚ)) (w : String) (z : ℚ)
    (h : (m.map Prod.fst).Nodup) : ((dictInsert m w z).map Prod.fst).Nodup := by
  cases hk : lookupA m w with
  | some z0 =>
    rw [dictInsert_eq_some m w z z0 hk, replaceA_map_fst]
    exact h
  | none =>
    rw [dictInsert_eq_none m w z hk, List.map_append]
    rw [List.nodup_append]
    refine ⟨h, by simp, ?_⟩
    intro a ha hb
    have ha' : a = w := by simpa using hb
    subst ha'
    obtain ⟨p, hp, hpa⟩ := List.mem_map.mp ha
    exact absurd hpa ((lookupA_eq_none_iff m a).mp hk p hp)

/-- Invariant carried through the aggregation loops: in every family, member
words are unique, every stored score is the word's (single) frequency score,
and every member passed the cutoff. -/
def famOK {κ : Type _} (score : String → ℚ) (cutoff : ℚ)
    (fam : κ × List (String × ℚ)) : Prop :=
  ((fam.2.map Prod.fst).Nodup) ∧
  ∀ p ∈ fam.2, cutoff ≤ score p.1 ∧ p.2 = score p.1

theorem famsInsert_eq_some {κ : Type _} [DecidableEq κ]
    (fams : List (κ × List (String × ℚ))) (k : κ) (w : String) (z : ℚ)
    (wmap : List (String × ℚ)) (hk : lookupA fams k = some wmap) :
    famsInsert fams k w z = replaceA fams k (dictInsert wmap w z) := by
  rw [famsInsert, hk]

theorem famsInsert_eq_none {κ : Type _} [DecidableEq κ]
    (fams : List (κ × List (String × ℚ))) (k : κ) (w : String) (z : ℚ)
    (hk : lookupA fams k = none) :
    famsInsert fams k w z = fams ++ [(k, [(w, z)])] := by
  rw [famsInsert, hk]

theorem famsInsert_pres {κ : Type _} [DecidableEq κ] (score : String → ℚ) (cutoff : ℚ)
    (fams : List (κ × List (String × ℚ))) (k : κ) (w : String) (z : ℚ)
    (hwz : cutoff ≤ score w ∧ z = score w)
    (h : ∀ fam ∈ fams, famOK score cutoff fam) :
    ∀ fam ∈ famsInsert fams k w z, famOK score cutoff fam := by
  intro fam hfam
  cases hk : lookupA fams k with
  | some wmap =>
    rw [famsInsert_eq_some fams k w z wmap hk] at hfam
    rcases mem_replaceA fams k _ fam hfam with ⟨hin, _⟩ | heq
    · exact h fam hin
    · subst heq
      have hwm := h (k, wmap) (lookupA_mem fams k wmap hk)
      constructor
      · exact dictInsert_keys_nodup wmap w z hwm.1
      · intro p hp
        rcases mem_dictInsert wmap w z p hp with hin | rfl
        · exact hwm.2 p hin
        · exact ⟨hwz.1, hwz.2⟩
  | none =>
    rw [famsInsert_eq_none fams k w z hk] at hfam
    rcases List.mem_append.mp hfam with hin | hnew
    · exact h fam hin
    · have heq : fam = (k, [(w, z)]) := by simpa using hnew
      subst heq
      refine ⟨by simp, ?_⟩
      intro p hp
      have : p = (w, z) := by simpa using hp
      subst this
      exact ⟨hwz.1, hwz.2⟩

theorem processProns_pres {κ : Type _} [DecidableEq κ] (keyFn : List String → Option κ)
    (score : String → ℚ) (cutoff : ℚ) (w : String) (z : ℚ)
    (hwz : cutoff ≤ score w ∧ z = score w) :
    ∀ (prons : List (List String)) (seen : List κ)
      (fams : List (κ × List (String × ℚ))),
      (∀ fam ∈ fams, famOK score cutoff fam) →
      ∀ fam ∈ processProns keyFn w z prons seen fams, famOK score cutoff fam
  | [], seen, fams => fun h => h
  | phonemes :: rest, seen, fams => by
    intro h
    cases hkey : keyFn phonemes with
    | none =>
      have heq : processProns keyFn w z (phonemes :: rest) seen fams =
          processProns keyFn w z rest seen fams := by
        rw [processProns, hkey]
      rw [heq]
      exact processProns_pres keyFn score cutoff w z hwz rest seen fams h
    | some k =>
      by_cases hseen : k ∈ seen
      · have heq : processProns keyFn w z (phonemes :: rest) seen fams =
            processProns keyFn w z rest seen fams := by
          rw [processProns, hkey]
          exact if_pos hseen
        rw [heq]
        exact processProns_pres keyFn score cutoff w z hwz rest seen fams h
      · have heq : processProns keyFn w z (phonemes :: rest) seen fams =
            processProns keyFn w z rest (k :: seen) (famsInsert fams k w z) := by
          rw [processProns, hkey]
          exact if_neg hseen
        rw [heq]
        exact processProns_pres keyFn score cutoff w z hwz rest (k :: seen) _
          (famsInsert_pres score cutoff fams k w z hwz h)

theorem aggregate_pres {κ : Type _} [DecidableEq κ] (keyFn : List String → Option κ)
    (score : String → ℚ) (cutoff : ℚ) :
    ∀ (input : List (String × List (List String)))
      (fams : List (κ × List (String × ℚ))),
      (∀ fam ∈ fams, famOK score cutoff fam) →
      ∀ fam ∈ aggregate keyFn score cutoff input fams, famOK score cutoff fam
  | [], fams => fun h => h
  | (w, prons) :: rest, fams => by
    intro h
    by_cases hz : score w < cutoff
    · have heq : aggregate keyFn score cutoff ((w, prons) :: rest) fams =
          aggregate keyFn score cutoff rest fams := by
        rw [aggregate]
        exact if_pos hz
      rw [heq]
      exact aggregate_pres keyFn score cutoff rest fams h
    · have heq : aggregate keyFn score cutoff ((w, prons) :: rest) fams =
          aggregate keyFn score cutoff rest
            (processProns keyFn w (score w) prons [] fams) := by
        rw [aggregate]
        exact if_neg hz
      rw [heq]
      exact aggregate_pres keyFn score cutoff rest _
        (processProns_pres keyFn score cutoff w (score w) ⟨not_lt.mp hz, rfl⟩ prons [] fams h)

theorem buildFamiliesBasic_famOK (score : String → ℚ) (cutoff : ℚ)
    (input : List (String × List (List String))) :
    ∀ fam ∈ buildFamiliesBasic score cutoff input, famOK score cutoff fam :=
  aggregate_pres rhyme_unit score cutoff input [] (by simp)

theorem buildFamiliesEnhanced_famOK (score : String → ℚ) (cutoff : ℚ)
    (input : List (String × List (List String))) :
    ∀ fam ∈ buildFamiliesEnhanced score cutoff input, famOK score cutoff fam :=
  aggregate_pres enhancedKey score cutoff input [] (by simp)

/-- C3: in every family built by either aggregator, each canonical word
appears at most once in the member map, so the member count (the reported
family size) equals the number of distinct words among the members. -/
theorem C3_member_dedup (score : String → ℚ) (cutoff : ℚ) (maxV : Nat)
    (input : List (String × List (List String))) :
    (∀ fam ∈ buildFamiliesBasic score cutoff input,
      ((fam.2.map Prod.fst).Nodup) ∧
      (mkBasicRow maxV fam.1 fam.2).family_size = (fam.2.map Prod.fst).dedup.length) ∧
    (∀ fam ∈ buildFamiliesEnhanced score cutoff input,
      ((fam.2.map Prod.fst).Nodup) ∧
      (build_family_row maxV fam.1.1 (pySortDesc fam.2) fam.1.2).family_size =
        (fam.2.map Prod.fst).dedup.length) := by
  constructor
  · intro fam hfam
    have hok := buildFamiliesBasic_famOK score cutoff input fam hfam
    refine ⟨hok.1, ?_⟩
    have hsz : (mkBasicRow maxV fam.1 fam.2).family_size = fam.2.length := by
      show (pySortDesc fam.2).length = fam.2.length
      exact List.length_insertionSort scoreGe fam.2
    rw [hsz, hok.1.dedup, List.length_map]
  · intro fam hfam
    have hok := buildFamiliesEnhanced_famOK score cutoff input fam hfam
    refine ⟨hok.1, ?_⟩
    have hsz : (build_family_row maxV fam.1.1 (pySortDesc fam.2) fam.1.2).family_size =
        fam.2.length := by
      show (pySortDesc fam.2).length = fam.2.length
      exact List.length_insertionSort scoreGe fam.2
    rw [hsz, hok.1.dedup, List.length_map]

/-- Concrete check of C3: a word whose pronunciation list repeats the same
rhyme unit is stored once in that unit's family. -/
theorem C3_witness :
    (([("either", (4 : ℚ))].map Prod.fst).Nodup) ∧
    (mkBasicRow 6 ["IY1", "DH", "ER0"] [("either", (4 : ℚ))]).family_size =
      ([("either", (4 : ℚ))].map Prod.fst).dedup.length := by
  have h := (C3_member_dedup (fun _ => 4) (mkRat 5 2) 6
    [("either", [["IY1", "DH", "ER0"], ["AY1", "DH", "ER0"], ["IY1", "DH", "ER0"]])]).1
  exact h (["IY1", "DH", "ER0"], [("either", (4 : ℚ))]) (by decide)

/-- C4: a word scoring below the cutoff is absent from every family of either
aggregator, and every stored member scores at least the cutoff (its stored
score being exactly its frequency score). -/
theorem C4_frequency_cutoff (score : String → ℚ) (cutoff : ℚ)
    (input : List (String × List (List String))) :
    (∀ fam ∈ buildFamiliesBasic score cutoff input, ∀ p ∈ fam.2,
      cutoff ≤ score p.1 ∧ p.2 = score p.1) ∧
    (∀ w : String, score w < cutoff →
      ∀ fam ∈ buildFamiliesBasic score cutoff input, ∀ p ∈ fam.2, p.1 ≠ w) ∧
    (∀ fam ∈ buildFamiliesEnhanced score cutoff input, ∀ p ∈ fam.2,
      cutoff ≤ score p.1 ∧ p.2 = score p.1) ∧
    (∀ w : String, score w < cutoff →
      ∀ fam ∈ buildFamiliesEnhanced score cutoff input, ∀ p ∈ fam.2, p.1 ≠ w) := by
  refine ⟨?_, ?_, ?_, ?_⟩
  · intro fam hfam
    exact (buildFamiliesBasic_famOK score cutoff input fam hfam).2
  · intro w hw fam hfam p hp heq
    have := ((buildFamiliesBasic_famOK score cutoff input fam hfam).2 p hp).1
    rw [heq] at this
    exact absurd hw (not_lt.mpr this)
  · intro fam hfam
    exact (buildFamiliesEnhanced_famOK score cutoff input fam hfam).2
  · intro w hw fam hfam p hp heq
    have := ((buildFamiliesEnhanced_famOK score cutoff input fam hfam).2 p hp).1
    rw [heq] at this
    exact absurd hw (not_lt.mpr this)

/-- Sample frequency table used by concrete witnesses. -/
def sampleScore : String → ℚ :=
  fun w => if w = "rare" then 1 else if w = "bee" then 5 else if w = "cat" then 4 else 3

/-- Sample pronunciation input used by concrete witnesses. -/
def sampleInput : List (String × List (List String)) :=
  [("rare", [["R", "EH1", "R"]]), ("cat", [["K", "AE1", "T"]]), ("bee", [["B", "IY1"]])]

/-- Concrete check of C4: with the sample data, the word "rare" (score 1,
below the cutoff 5/2) leaves the remaining member of the AE1-T family with a
score above the cutoff. -/
theorem C4_witness :
    mkRat 5 2 ≤ sampleScore "cat" ∧ (4 : ℚ) = sampleScore "cat" := by
  have h := (C4_frequency_cutoff sampleScore (mkRat 5 2) sampleInput).1
  exact h (["AE1", "T"], [("cat", (4 : ℚ))]) (by decide) ("cat", (4 : ℚ)) (by decide)

/-- C7: for every nonempty family member map, the representative of the built
row is the first member in encounter order among those attaining the maximal
score (the head of the stable descending sort, expressed below as the head of
the maximal-score members in encounter order), and `rep_zipf` is its rounded
score — in both the basic and the enhanced row builder. -/
theorem C7_representative (u : List String) (rtype : String) (maxV : Nat)
    (wmap : List (String × ℚ)) (hne : wmap ≠ []) :
    ∃ p : String × ℚ,
      (wmap.filter (fun q => wmap.all (fun q' => decide (q'.2 ≤ q.2)))).head? = some p ∧
      p ∈ wmap ∧ (∀ q ∈ wmap, q.2 ≤ p.2) ∧
      (mkBasicRow maxV u wmap).representative = p.1 ∧
      (mkBasicRow maxV u wmap).rep_zipf = roundTo 2 p.2 ∧
      (build_family_row maxV u (pySortDesc wmap) rtype).representative = p.1 ∧
      (build_family_row maxV u (pySortDesc wmap) rtype).rep_zipf = roundTo 2 p.2 := by
  cases hp : pickMax wmap with
  | none => exact absurd ((pickMax_eq_none_iff wmap).mp hp) hne
  | some p =>
    have hh : (pySortDesc wmap).head? = some p := by
      rw [head?_pySortDesc, hp]
    have hrep : (pySortDesc wmap).head?.getD ("", 0) = p := by
      rw [hh]
      rfl
    refine ⟨p, ?_, pickMax_mem wmap p hp, pickMax_le wmap p hp, ?_, ?_, ?_, ?_⟩
    · rw [← pickMax_eq_filter_head, hp]
    · show ((pySortDesc wmap).head?.getD ("", 0)).1 = p.1
      rw [hrep]
    · show roundTo 2 ((pySortDesc wmap).head?.getD ("", 0)).2 = roundTo 2 p.2
      rw [hrep]
    · show ((pySortDesc wmap).head?.getD ("", 0)).1 = p.1
      rw [hrep]
    · show roundTo 2 ((pySortDesc wmap).head?.getD ("", 0)).2 = roundTo 2 p.2
      rw [hrep]

/-- Concrete check of C7: with a tie at the top score, the earlier of the
tied members is the representative. -/
theorem C7_witness :
    (mkBasicRow 6 ["AY1", "T"]
      [("cat", (3 : ℚ)), ("night", (5 : ℚ)), ("fight", (5 : ℚ))]).representative =
      "night" := by
  obtain ⟨p, hfilter, -, -, hrep, -, -, -⟩ :=
    C7_representative ["AY1", "T"] "masculine" 6
      [("cat", (3 : ℚ)), ("night", (5 : ℚ)), ("fight", (5 : ℚ))] (by decide)
  have hval : (([("cat", (3 : ℚ)), ("night", (5 : ℚ)), ("fight", (5 : ℚ))]).filter
      (fun q => ([("cat", (3 : ℚ)), ("night", (5 : ℚ)), ("fight", (5 : ℚ))]).all
        (fun q' => decide (q'.2 ≤ q.2)))).head? = some ("night", (5 : ℚ)) := by decide
  rw [hval] at hfilter
  have hpn : p = ("night", (5 : ℚ)) := Option.some.inj hfilter.symm
  rw [hrep, hpn]

theorem filterMap_threshold {α β : Type _} (g : α → β) (sz : α → Nat) (minSize : Nat) :
    ∀ l : List α,
      l.filterMap (fun f => if sz f < minSize then none else some (g f)) =
        (l.filter (fun f => decide (minSize ≤ sz f))).map g
  | [] => rfl
  | x :: xs => by
    rw [List.filterMap_cons, List.filter_cons]
    by_cases h : sz x < minSize
    · rw [if_pos h]
      have hd : decide (minSize ≤ sz x) = false := decide_eq_false (by omega)
      rw [hd]
      simpa using filterMap_threshold g sz minSize xs
    · rw [if_neg h]
      have hd : decide (minSize ≤ sz x) = true := decide_eq_true (by omega)
      rw [hd]
      simp only [if_pos rfl, List.map_cons]
      rw [filterMap_threshold g sz minSize xs]
      simp

theorem mkBasicRow_family_size (maxV : Nat) (u : List String) (wmap : List (String × ℚ)) :
    (mkBasicRow maxV u wmap).family_size = wmap.length := by
  show (pySortDesc wmap).length = wmap.length
  exact List.length_insertionSort scoreGe wmap

/-- C5: a family with fewer members than the configured minimum produces no
output row at all — the emitted rows are exactly the rows of the qualifying
families — and every emitted row (basic final rows, per-type enhanced rows,
combined enhanced rows) has `family_size` at least the minimum. -/
theorem C5_min_family_size (score : String → ℚ) (cutoff : ℚ) (minSize maxV : Nat)
    (input : List (String × List (List String))) (rtype : String)
    (famsB : List (List String × List (String × ℚ)))
    (famsE : List ((List String × String) × List (String × ℚ))) :
    (buildRowsBasic minSize maxV famsB =
      ((famsB.filter (fun f => decide (minSize ≤ f.2.length))).map
        (fun f => mkBasicRow maxV f.1 f.2))) ∧
    (rowsForType minSize maxV rtype famsE =
      pySortRowsEnhanced (((famsOfType rtype famsE).filter
        (fun f => decide (minSize ≤ f.2.length))).map
        (fun f => build_family_row maxV f.1 (pySortDesc f.2) rtype))) ∧
    (∀ row ∈ mainRowsBasic score cutoff minSize maxV input, minSize ≤ row.family_size) ∧
    (∀ row ∈ rowsForType minSize maxV rtype famsE, minSize ≤ row.family_size) ∧
    (∀ row ∈ allRowsEnhanced minSize maxV famsE, minSize ≤ row.family_size) := by
  have hB : ∀ fams : List (List String × List (String × ℚ)),
      buildRowsBasic minSize maxV fams =
        ((fams.filter (fun f => decide (minSize ≤ f.2.length))).map
          (fun f => mkBasicRow maxV f.1 f.2)) := by
    intro fams
    exact filterMap_threshold (fun f => mkBasicRow maxV f.1 f.2) (fun f => f.2.length)
      minSize fams
  have hE : ∀ (rt : String) (fams : List (List String × List (String × ℚ))),
      (fams.filterMap (fun f => if f.2.length < minSize then none
          else some (build_family_row maxV f.1 (pySortDesc f.2) rt))) =
        ((fams.filter (fun f => decide (minSize ≤ f.2.length))).map
          (fun f => build_family_row maxV f.1 (pySortDesc f.2) rt)) := by
    intro rt fams
    exact filterMap_threshold (fun f => build_family_row maxV f.1 (pySortDesc f.2) rt)
      (fun f => f.2.length) minSize fams
  have hEmem : ∀ (rt : String), ∀ row ∈ rowsForType minSize maxV rt famsE,
      minSize ≤ row.family_size := by
    intro rt row hrow
    rw [rowsForType, pySortRowsEnhanced] at hrow
    rw [List.mem_insertionSort] at hrow
    rw [hE rt (famsOfType rt famsE)] at hrow
    obtain ⟨f, hf, hfr⟩ := List.mem_map.mp hrow
    have hsz : (build_family_row maxV f.1 (pySortDesc f.2) rt).family_size =
        f.2.length := by
      show (pySortDesc f.2).length = f.2.length
      exact List.length_insertionSort scoreGe f.2
    rw [← hfr, hsz]
    exact of_decide_eq_true (List.mem_filter.mp hf).2
  refine ⟨hB famsB, ?_, ?_, hEmem rtype, ?_⟩
  · rw [rowsForType, hE]
  · intro row hrow
    rw [mainRowsBasic, pySortRowsBasic] at hrow
    rw [List.mem_insertionSort] at hrow
    rw [hB] at hrow
    obtain ⟨f, hf, hfr⟩ := List.mem_map.mp hrow
    rw [← hfr, mkBasicRow_family_size]
    exact of_decide_eq_true (List.mem_filter.mp hf).2
  · intro row hrow
    rw [allRowsEnhanced, pySortRowsEnhanced, List.mem_insertionSort] at hrow
    rcases List.mem_append.mp hrow with h1 | h23
    · exact hEmem "masculine" row h1
    · rcases List.mem_append.mp h23 with h2 | h3
      · exact hEmem "feminine" row h2
      · exact hEmem "dactylic" row h3

/-- Concrete check of C5: a one-member family is absent from the output when
the minimum family size is 2, while the two-member family survives. -/
theorem C5_witness :
    buildRowsBasic 2 6 [(["IY1"], [("bee", (5 : ℚ))]),
        (["AE1", "T"], [("cat", (4 : ℚ)), ("hat", (3 : ℚ))])] =
      [mkBasicRow 6 ["AE1", "T"] [("cat", (4 : ℚ)), ("hat", (3 : ℚ))]] := by
  have h := (C5_min_family_size (fun _ => 0) 0 2 6 [] "masculine"
    [(["IY1"], [("bee", (5 : ℚ))]), (["AE1", "T"], [("cat", (4 : ℚ)), ("hat", (3 : ℚ))])]
    []).1
  rw [h]
  decide

theorem sorted_adjacent {α : Type _} {R : α → α → Prop} {l : List α}
    (h : List.Sorted R l) (i : Nat) (hi : i + 1 < l.length) :
    R (l.get ⟨i, Nat.lt_of_succ_lt hi⟩) (l.get ⟨i + 1, hi⟩) :=
  h.rel_get_of_lt (Nat.lt_succ_self i)

/-- C6: every final row list — the basic output, each per-type enhanced
output, and the combined enhanced output — is sorted primarily by descending
family size, secondarily by descending representative score: for adjacent
rows, the earlier row's key pair is lexicographically at least the later
row's. -/
theorem C6_rows_sorted (score : String → ℚ) (cutoff : ℚ) (minSize maxV : Nat)
    (input : List (String × List (List String))) (rtype : String)
    (famsE : List ((List String × String) × List (String × ℚ))) :
    (∀ i (hi : i + 1 < (mainRowsBasic score cutoff minSize maxV input).length),
      keyGe
        (((mainRowsBasic score cutoff minSize maxV input).get
            ⟨i, Nat.lt_of_succ_lt hi⟩).family_size,
          ((mainRowsBasic score cutoff minSize maxV input).get
            ⟨i, Nat.lt_of_succ_lt hi⟩).rep_zipf)
        (((mainRowsBasic score cutoff minSize maxV input).get ⟨i + 1, hi⟩).family_size,
          ((mainRowsBasic score cutoff minSize maxV input).get ⟨i + 1, hi⟩).rep_zipf)) ∧
    (∀ i (hi : i + 1 < (rowsForType minSize maxV rtype famsE).length),
      keyGe
        (((rowsForType minSize maxV rtype famsE).get
            ⟨i, Nat.lt_of_succ_lt hi⟩).family_size,
          ((rowsForType minSize maxV rtype famsE).get
            ⟨i, Nat.lt_of_succ_lt hi⟩).rep_zipf)
        (((rowsForType minSize maxV rtype famsE).get ⟨i + 1, hi⟩).family_size,
          ((rowsForType minSize maxV rtype famsE).get ⟨i + 1, hi⟩).rep_zipf)) ∧
    (∀ i (hi : i + 1 < (allRowsEnhanced minSize maxV famsE).length),
      keyGe
        (((allRowsEnhanced minSize maxV famsE).get
            ⟨i, Nat.lt_of_succ_lt hi⟩).family_size,
          ((allRowsEnhanced minSize maxV famsE).get
            ⟨i, Nat.lt_of_succ_lt hi⟩).rep_zipf)
        (((allRowsEnhanced minSize maxV famsE).get ⟨i + 1, hi⟩).family_size,
          ((allRowsEnhanced minSize maxV famsE).get ⟨i + 1, hi⟩).rep_zipf)) := by
  have hs1 : List.Sorted basicRowGe (mainRowsBasic score cutoff minSize maxV input) :=
    List.sorted_insertionSort basicRowGe
      (buildRowsBasic minSize maxV (buildFamiliesBasic score cutoff input))
  have hs2 : List.Sorted enhancedRowGe (rowsForType minSize maxV rtype famsE) :=
    List.sorted_insertionSort enhancedRowGe _
  have hs3 : List.Sorted enhancedRowGe (allRowsEnhanced minSize maxV famsE) :=
    List.sorted_insertionSort enhancedRowGe _
  exact ⟨fun i hi => sorted_adjacent hs1 i hi,
    fun i hi => sorted_adjacent hs2 i hi,
    fun i hi => sorted_adjacent hs3 i hi⟩

/-- Concrete check of C6: on the sample data (two one-member families), the
first output row's key dominates the second's. -/
theorem C6_witness :
    keyGe
      (((mainRowsBasic sampleScore (mkRat 5 2) 1 6 sampleInput).get
          ⟨0, by decide⟩).family_size,
        ((mainRowsBasic sampleScore (mkRat 5 2) 1 6 sampleInput).get
          ⟨0, by decide⟩).rep_zipf)
      (((mainRowsBasic sampleScore (mkRat 5 2) 1 6 sampleInput).get
          ⟨1, by decide⟩).family_size,
        ((mainRowsBasic sampleScore (mkRat 5 2) 1 6 sampleInput).get
          ⟨1, by decide⟩).rep_zipf) :=
  (C6_rows_sorted sampleScore (mkRat 5 2) 1 6 sampleInput "masculine" []).1 0 (by decide)

theorem by_ending_step_eq_none (m : List (String × (String × ℚ))) (wz : String × ℚ)
    (hk : lookupA m (ortho_ending wz.1) = none) :
    by_ending_step m wz = m ++ [(ortho_ending wz.1, wz)] := by
  simp only [by_ending_step]
  rw [hk]

theorem by_ending_step_eq_lt (m : List (String × (String × ℚ))) (wz : String × ℚ)
    (prev : String × ℚ) (hk : lookupA m (ortho_ending wz.1) = some prev)
    (hlt : prev.2 < wz.2) :
    by_ending_step m wz = replaceA m (ortho_ending wz.1) wz := by
  simp only [by_ending_step]
  rw [hk]
  exact if_pos hlt

theorem by_ending_step_eq_ge (m : List (String × (String × ℚ))) (wz : String × ℚ)
    (prev : String × ℚ) (hk : lookupA m (ortho_ending wz.1) = some prev)
    (hlt : ¬prev.2 < wz.2) :
    by_ending_step m wz = m := by
  simp only [by_ending_step]
  rw [hk]
  exact if_neg hlt

/-- Invariant of the `by_ending` loop over the processed prefix `P`: keys are
distinct endings, each entry holds a processed member with that ending and a
maximal score among the processed members with that ending, and every
processed member's ending has an entry. -/
def endingOK (P : List (String × ℚ)) (acc : List (String × (String × ℚ))) : Prop :=
  ((acc.map Prod.fst).Nodup) ∧
  (∀ ev ∈ acc, ortho_ending ev.2.1 = ev.1 ∧ ev.2 ∈ P ∧
    ∀ q ∈ P, ortho_ending q.1 = ev.1 → q.2 ≤ ev.2.2) ∧
  (∀ q ∈ P, ortho_ending q.1 ∈ acc.map Prod.fst)

theorem by_ending_step_pres (P : List (String × ℚ)) (acc : List (String × (String × ℚ)))
    (wz : String × ℚ) (h : endingOK P acc) : endingOK (P ++ [wz]) (by_ending_step acc wz) := by
  obtain ⟨hnd, hent, hcov⟩ := h
  cases hk : lookupA acc (ortho_ending wz.1) with
  | none =>
    rw [by_ending_step_eq_none acc wz hk]
    have hknotin : ortho_ending wz.1 ∉ acc.map Prod.fst := by
      intro hmem
      obtain ⟨p, hp, hpe⟩ := List.mem_map.mp hmem
      exact (lookupA_eq_none_iff acc (ortho_ending wz.1)).mp hk p hp hpe
    refine ⟨?_, ?_, ?_⟩
    · rw [List.map_append, List.nodup_append]
      refine ⟨hnd, by simp, ?_⟩
      intro a ha hb
      have hae : a = ortho_ending wz.1 := by simpa using hb
      exact hknotin (hae ▸ ha)
    · intro ev hev
      rcases List.mem_append.mp hev with hin | hnew
      · obtain ⟨he1, he2, he3⟩ := hent ev hin
        refine ⟨he1, List.mem_append_left _ he2, ?_⟩
        intro q hq hqe
        rcases List.mem_append.mp hq with hq' | hq''
        · exact he3 q hq' hqe
        · have hqwz : q = wz := by simpa using hq''
          subst hqwz
          exfalso
          apply hknotin
          rw [hqe]
          exact List.mem_map.mpr ⟨ev, hin, rfl⟩
      · have hev' : ev = (ortho_ending wz.1, wz) := by simpa using hnew
        subst hev'
        refine ⟨rfl, List.mem_append_right _ (by simp), ?_⟩
        intro q hq hqe
        rcases List.mem_append.mp hq with hq' | hq''
        · exfalso
          apply hknotin
          have hc := hcov q hq'
          rw [hqe] at hc
          exact hc
        · have hqwz : q = wz := by simpa using hq''
          subst hqwz
          exact le_refl _
    · intro q hq
      rw [List.map_append]
      rcases List.mem_append.mp hq with hq' | hq''
      · exact List.mem_append_left _ (hcov q hq')
      · have hqwz : q = wz := by simpa using hq''
        subst hqwz
        exact List.mem_append_right _ (by simp)
  | some prev =>
    have hprevmem : (ortho_ending wz.1, prev) ∈ acc := lookupA_mem acc _ prev hk
    have hprevmax := hent (ortho_ending wz.1, prev) hprevmem
    by_cases hlt : prev.2 < wz.2
    · rw [by_ending_step_eq_lt acc wz prev hk hlt]
      refine ⟨?_, ?_, ?_⟩
      · rw [replaceA_map_fst]
        exact hnd
      · intro ev hev
        rcases mem_replaceA acc _ wz ev hev with ⟨hin, hne⟩ | hev'
        · obtain ⟨he1, he2, he3⟩ := hent ev hin
          refine ⟨he1, List.mem_append_left _ he2, ?_⟩
          intro q hq hqe
          rcases List.mem_append.mp hq with hq' | hq''
          · exact he3 q hq' hqe
          · have hqwz : q = wz := by simpa using hq''
            subst hqwz
            exact absurd hqe.symm hne
        · subst hev'
          refine ⟨rfl, List.mem_append_right _ (by simp), ?_⟩
          intro q hq hqe
          rcases List.mem_append.mp hq with hq' | hq''
          · have hle := hprevmax.2.2 q hq' hqe
            exact le_of_lt (lt_of_le_of_lt hle hlt)
          · have hqwz : q = wz := by simpa using hq''
            subst hqwz
            exact le_refl _
      · intro q hq
        rw [replaceA_map_fst]
        rcases List.mem_append.mp hq with hq' | hq''
        · exact hcov q hq'
        · have hqwz : q = wz := by simpa using hq''
          subst hqwz
          exact List.mem_map.mpr ⟨(ortho_ending q.1, prev), hprevmem, rfl⟩
    · rw [by_ending_step_eq_ge acc wz prev hk hlt]
      refine ⟨hnd, ?_, ?_⟩
      · intro ev hev
        obtain ⟨he1, he2, he3⟩ := hent ev hev
        refine ⟨he1, List.mem_append_left _ he2, ?_⟩
        intro q hq hqe
        rcases List.mem_append.mp hq with hq' | hq''
        · exact he3 q hq' hqe
        · have hqwz : q = wz := by simpa using hq''
          subst hqwz
          have hlook := lookupA_of_nodup acc hnd ev hev
          rw [← hqe] at hlook
          have hprev : prev = ev.2 := Option.some.inj (hk.symm.trans hlook)
          have hple : q.2 ≤ prev.2 := not_lt.mp hlt
          rw [hprev] at hple
          exact hple
      · intro q hq
        rcases List.mem_append.mp hq with hq' | hq''
        · exact hcov q hq'
        · have hqwz : q = wz := by simpa using hq''
          subst hqwz
          exact List.mem_map.mpr ⟨(ortho_ending q.1, prev), hprevmem, rfl⟩

theorem by_ending_fold_inv :
    ∀ (l P : List (String × ℚ)) (acc : List (String × (String × ℚ))),
      endingOK P acc → endingOK (P ++ l) (l.foldl by_ending_step acc)
  | [], P, acc => by
    intro h
    simpa using h
  | x :: xs, P, acc => by
    intro h
    have hstep := by_ending_step_pres P acc x h
    have hrest := by_ending_fold_inv xs (P ++ [x]) (by_ending_step acc x) hstep
    simpa [List.append_assoc] using hrest

theorem by_ending_inv (members : List (String × ℚ)) :
    endingOK members (by_ending members) := by
  have h := by_ending_fold_inv members [] [] ⟨by simp, by simp, by simp⟩
  simpa [by_ending] using h

/-- C8: for every family, the spelling-variant candidate list (sorted
`by_ending` values) has exactly one entry per distinct orthographic ending
among the members — a member with that ending of maximal score — sorted by
descending score; the summary field shows the first `maxV` of them, and the
row's full member list is all members sorted by descending score. -/
theorem C8_spelling_variants (maxV : Nat) (u : List String) (rtype : String)
    (wmap : List (String × ℚ)) :
    ((variantsPre (pySortDesc wmap)).map (fun p => ortho_ending p.1)).Nodup ∧
    (∀ q ∈ pySortDesc wmap, ∃ p ∈ variantsPre (pySortDesc wmap),
      ortho_ending p.1 = ortho_ending q.1) ∧
    (∀ p ∈ variantsPre (pySortDesc wmap), p ∈ pySortDesc wmap ∧
      ∀ q ∈ pySortDesc wmap, ortho_ending q.1 = ortho_ending p.1 → q.2 ≤ p.2) ∧
    List.Sorted scoreGe (variantsPre (pySortDesc wmap)) ∧
    (variantsShown maxV (pySortDesc wmap)).length ≤ maxV ∧
    (build_family_row maxV u (pySortDesc wmap) rtype).spelling_variants =
      String.intercalate ",  " ((variantsShown maxV (pySortDesc wmap)).map
        (fun p => p.1 ++ " (" ++ fmtFixed 1 p.2 ++ ")")) ∧
    (mkBasicRow maxV u wmap).spelling_variants =
      String.intercalate ",  " ((variantsShown maxV (pySortDesc wmap)).map
        (fun p => p.1 ++ " (" ++ fmtFixed 1 p.2 ++ ")")) ∧
    (build_family_row maxV u (pySortDesc wmap) rtype).all_words =
      String.intercalate ", " ((pySortDesc wmap).map Prod.fst) ∧
    (mkBasicRow maxV u wmap).all_words =
      String.intercalate ", " ((pySortDesc wmap).map Prod.fst) ∧
    List.Perm (pySortDesc wmap) wmap ∧
    List.Sorted scoreGe (pySortDesc wmap) := by
  obtain ⟨hnd, hent, hcov⟩ := by_ending_inv (pySortDesc wmap)
  have hperm : List.Perm (variantsPre (pySortDesc wmap))
      ((by_ending (pySortDesc wmap)).map Prod.snd) :=
    List.perm_insertionSort scoreGe _
  refine ⟨?_, ?_, ?_, List.sorted_insertionSort scoreGe _, ?_, rfl, rfl, rfl, rfl,
    List.perm_insertionSort scoreGe wmap, List.sorted_insertionSort scoreGe wmap⟩
  · have hmeq : ((by_ending (pySortDesc wmap)).map Prod.snd).map
        (fun p => ortho_ending p.1) = (by_ending (pySortDesc wmap)).map Prod.fst := by
      rw [List.map_map]
      apply List.map_congr_left
      intro ev hev
      exact (hent ev hev).1
    have hpm := hperm.map (fun p => ortho_ending p.1)
    rw [hmeq] at hpm
    exact hpm.nodup_iff.mpr hnd
  · intro q hq
    have hkey := hcov q hq
    obtain ⟨ev, hev, heq⟩ := List.mem_map.mp hkey
    refine ⟨ev.2, ?_, ?_⟩
    · exact (List.mem_insertionSort scoreGe).mpr (List.mem_map.mpr ⟨ev, hev, rfl⟩)
    · rw [(hent ev hev).1]
      exact heq
  · intro p hp
    have hpv : p ∈ (by_ending (pySortDesc wmap)).map Prod.snd :=
      (List.mem_insertionSort scoreGe).mp hp
    obtain ⟨ev, hev, hevp⟩ := List.mem_map.mp hpv
    obtain ⟨he1, he2, he3⟩ := hent ev hev
    subst hevp
    exact ⟨he2, fun q hq hqe => he3 q hq (hqe.trans he1)⟩
  · rw [variantsShown, List.length_take]
    exact Nat.min_le_left _ _

/-- Concrete check of C8: in the night/fight/write/byte family, "fight"
scores at most the kept "ight"-ending entry "night", and the candidate
endings are distinct. -/
theorem C8_witness :
    ((("fight", (4 : ℚ)).2 : ℚ) ≤ (("night", (5 : ℚ)).2 : ℚ)) ∧
    ((variantsPre (pySortDesc [("night", (5 : ℚ)), ("fight", (4 : ℚ)),
        ("write", (3 : ℚ)), ("byte", (2 : ℚ))])).map (fun p => ortho_ending p.1)).Nodup := by
  have h := C8_spelling_variants 6 ["AY1", "T"] "masculine"
    [("night", (5 : ℚ)), ("fight", (4 : ℚ)), ("write", (3 : ℚ)), ("byte", (2 : ℚ))]
  refine ⟨?_, h.1⟩
  exact (h.2.2.1 ("night", (5 : ℚ)) (by decide)).2 ("fight", (4 : ℚ)) (by decide) (by decide)

/-- C9 counterexample: the spelling-variant summary is not rendered at 2
decimal places — for the one-member family "cat" with score 3 the summary
reads "cat (3.0)", not "cat (3.00)". -/
theorem C9_counterexample :
    ¬ ((build_family_row 6 ["AE1", "T"] [("cat", (3 : ℚ))] "masculine").spelling_variants =
      String.intercalate ",  " ((variantsShown 6 [("cat", (3 : ℚ))]).map
        (fun p => p.1 ++ " (" ++ fmtFixed 2 p.2 ++ ")"))) := by
  decide

/-- C9 (amended): the representative's score is rounded to 2 decimal places,
while each score in the spelling-variants summary is rendered at 1 decimal
place, in both row builders. -/
theorem C9_display_precision (maxV : Nat) (u : List String) (rtype : String)
    (wmap : List (String × ℚ)) (hne : wmap ≠ []) :
    ∃ p : String × ℚ, p ∈ wmap ∧ (∀ q ∈ wmap, q.2 ≤ p.2) ∧
      (mkBasicRow maxV u wmap).rep_zipf = roundTo 2 p.2 ∧
      (build_family_row maxV u (pySortDesc wmap) rtype).rep_zipf = roundTo 2 p.2 ∧
      (mkBasicRow maxV u wmap).spelling_variants =
        String.intercalate ",  " ((variantsShown maxV (pySortDesc wmap)).map
          (fun q => q.1 ++ " (" ++ fmtFixed 1 q.2 ++ ")")) ∧
      (build_family_row maxV u (pySortDesc wmap) rtype).spelling_variants =
        String.intercalate ",  " ((variantsShown maxV (pySortDesc wmap)).map
          (fun q => q.1 ++ " (" ++ fmtFixed 1 q.2 ++ ")")) := by
  cases hp : pickMax wmap with
  | none => exact absurd ((pickMax_eq_none_iff wmap).mp hp) hne
  | some p =>
    have hh : (pySortDesc wmap).head? = some p := by
      rw [head?_pySortDesc, hp]
    have hrep : (pySortDesc wmap).head?.getD ("", 0) = p := by
      rw [hh]
      rfl
    refine ⟨p, pickMax_mem wmap p hp, pickMax_le wmap p hp, ?_, ?_, rfl, rfl⟩
    · show roundTo 2 ((pySortDesc wmap).head?.getD ("", 0)).2 = roundTo 2 p.2
      rw [hrep]
    · show roundTo 2 ((pySortDesc wmap).head?.getD ("", 0)).2 = roundTo 2 p.2
      rw [hrep]

/-- Concrete check of the amended C9: the one-member family "cat" (score 3)
reports `rep_zipf` rounded at 2 decimals and shows "cat (3.0)" — one decimal
place — in the summary. -/
theorem C9_witness :
    (mkBasicRow 6 ["AE1", "T"] [("cat", (3 : ℚ))]).rep_zipf = roundTo 2 (3 : ℚ) ∧
    (mkBasicRow 6 ["AE1", "T"] [("cat", (3 : ℚ))]).spelling_variants = "cat (3.0)" := by
  obtain ⟨p, hmem, -, hzipfB, -, hsvB, -⟩ :=
    C9_display_precision 6 ["AE1", "T"] "masculine" [("cat", (3 : ℚ))] (by decide)
  have hp : p = ("cat", (3 : ℚ)) := by simpa using hmem
  constructor
  · rw [hzipfB, hp]
  · rw [hsvB]
    decide
